import Mathlib

/-!
Shallow embedding of the extraction orchestration engine of
qbit-torrent-extract (src/qbit_torrent_extract/validator.py and
extractor.py), together with theorems settling the specification claims.

Python strings (file names, paths, archive member names) are modelled as
`List Char` so that every operation is structurally recursive and
kernel-computable.  Archive contents, codec-library answers (member
listings, integrity results, password flags) and the per-path answers of
the validator / depth check / dispatcher seen by the orchestration loop
are supplied as explicit data, mirroring the values the Python code
obtains from its collaborators.
-/

/-- A Python string (a filename, path, or archive member name). -/
abbrev Name := List Char

/-- Canonical archive-type tags, the values of `SUPPORTED_EXTENSIONS`
(validator.py lines 33-41). -/
inductive ArchiveType where
  | zip
  | rar
  | sevenZ
  | tar
  | targz
  | gz
  deriving DecidableEq, Repr

/-- The extension-to-tag table `SUPPORTED_EXTENSIONS` of
`ArchiveValidator` (validator.py lines 33-41). -/
def SUPPORTED_EXTENSIONS : List (Name × ArchiveType) :=
  [(".zip".data, .zip), (".rar".data, .rar), (".7z".data, .sevenZ),
   (".tar".data, .tar), (".tar.gz".data, .targz), (".tgz".data, .targz),
   (".gz".data, .gz)]

/-- Python `str.lower` (ASCII case folding via `Char.toLower`, which is
all the extension table requires). -/
def strLower (s : Name) : Name :=
  s.map Char.toLower

/-- Python `str.endswith`. -/
def endsWithName (s t : Name) : Bool :=
  t.isSuffixOf s

/-- Python `str.split` on the dot character (used to model
`pathlib.PurePath.suffix`). -/
def splitOnDot : Name → List Name
  | [] => [[]]
  | c :: rest =>
    let r := splitOnDot rest
    if c = '.' then [] :: r
    else
      match r with
      | [] => [[c]]
      | h :: t => (c :: h) :: t

/-- Python `pathlib.PurePath.suffix` applied to a filename: the substring
from the last dot on, unless that dot is the first or the last character,
in which case the suffix is empty. -/
def pathSuffix (s : Name) : Name :=
  let parts := splitOnDot s
  match parts with
  | [] => []
  | [_] => []
  | _ =>
    let last := parts.getLastD []
    if last = [] then []
    else if parts = [[], last] then []
    else '.' :: last

/-- The archive-type detector `ArchiveValidator.detect_archive_type`
(validator.py lines 98-116): lower-case the filename, give the compound
extensions precedence, then look the lower-cased final extension up in
`SUPPORTED_EXTENSIONS`.  The argument is the filename (the final path
component, Python `Path.name`). -/
def detectArchiveType (name : Name) : Option ArchiveType :=
  let nameLower := strLower name
  if endsWithName nameLower ".tar.gz".data || endsWithName nameLower ".tgz".data then
    some .targz
  else
    List.lookup (strLower (pathSuffix name)) SUPPORTED_EXTENSIONS

/-- Validator / extraction-relevant configuration fields (config.py lines
16-30).  Ratios are modelled as rationals.  `preserveOriginals` reaches
the extractor as its `preserve_archives` constructor argument (main.py
line 82). -/
structure Config where
  maxExtractionRatio : ℚ := 100
  maxNestedDepth : Nat := 3
  preserveOriginals : Bool := true
  deriving Repr

/-- Validation failure messages; the Python strings are abstracted to
tags (their text is never inspected by the engine). -/
inductive ErrMsg where
  | notFound
  | unsupportedType
  | corruptedFile (badName : Name)
  | passwordProtected
  | ratioExceeded
  | invalidArchive
  | notImplemented
  deriving DecidableEq, Repr

/-- The `ValidationResult` dataclass (validator.py lines 17-27). -/
structure ValidationResult where
  isValid : Bool
  archiveType : Option ArchiveType := none
  errorMessage : Option ErrMsg := none
  totalSize : Nat := 0
  compressedSize : Nat := 0
  extractionRatio : ℚ := 0
  nestedDepth : Nat := 0
  fileCount : Nat := 0
  deriving Repr

/-- One member record of a ZIP (or RAR) archive as reported by the codec
library: `info.file_size` and `info.compress_size`. -/
structure ZipEntry where
  fileSize : Nat
  compressSize : Nat
  deriving DecidableEq, Repr

/-- A ZIP archive as the validator observes it through `zipfile`:
whether opening raises `BadZipFile`, the `testzip()` answer, and the
member records. -/
structure ZipFileX where
  openFails : Bool
  badMember : Option Name
  entries : List ZipEntry
  deriving Repr

/-- Total uncompressed size summed by `_validate_zip`. -/
def zipTotalSize (z : ZipFileX) : Nat :=
  (z.entries.map (fun e => e.fileSize)).sum

/-- Total compressed size summed by `_validate_zip`. -/
def zipCompressedSize (z : ZipFileX) : Nat :=
  (z.entries.map (fun e => e.compressSize)).sum

/-- `ArchiveValidator._validate_zip` (validator.py lines 118-170):
integrity test, size sums, the extraction ratio (1.0 when the compressed
size is 0) and the zipbomb gate `ratio > max_extraction_ratio`. -/
def validateZip (cfg : Config) (z : ZipFileX) : ValidationResult :=
  if z.openFails then
    { isValid := false, archiveType := some .zip,
      errorMessage := some .invalidArchive }
  else
    match z.badMember with
    | some bad =>
      { isValid := false, archiveType := some .zip,
        errorMessage := some (.corruptedFile bad) }
    | none =>
      let total := zipTotalSize z
      let compressed := zipCompressedSize z
      let ratio : ℚ := if 0 < compressed then (total : ℚ) / compressed else 1
      if cfg.maxExtractionRatio < ratio then
        { isValid := false, archiveType := some .zip,
          errorMessage := some .ratioExceeded,
          totalSize := total, compressedSize := compressed,
          extractionRatio := ratio, fileCount := z.entries.length }
      else
        { isValid := true, archiveType := some .zip,
          totalSize := total, compressedSize := compressed,
          extractionRatio := ratio, fileCount := z.entries.length }

/-- One member record of a TAR archive: its name, whether it is a
regular file (`member.isfile()`), and its uncompressed size. -/
structure TarEntry where
  entryName : Name
  isFile : Bool
  size : Nat
  deriving DecidableEq, Repr

/-- A TAR (or TAR.GZ) archive as the validator observes it through
`tarfile`: whether opening raises `TarError`, the member records, and the
archive's own on-disk size (`archive_path.stat().st_size`). -/
structure TarFileX where
  openFails : Bool
  entries : List TarEntry
  diskSize : Nat
  deriving Repr

/-- Total uncompressed size summed by `_validate_tar` (regular-file
members only). -/
def tarTotalSize (t : TarFileX) : Nat :=
  ((t.entries.filter (fun e => e.isFile)).map (fun e => e.size)).sum

/-- Regular-file member count of `_validate_tar`. -/
def tarFileCount (t : TarFileX) : Nat :=
  (t.entries.filter (fun e => e.isFile)).length

/-- `ArchiveValidator._validate_tar` (validator.py lines 225-271): sums
regular-file sizes, approximates the compressed size with the archive's
on-disk size, computes the ratio (1.0 when that size is 0), and applies
the same zipbomb gate.  `gzMode` records whether the gzip mode was chosen
(`archive_path.suffix in ('.gz', '.tgz')`). -/
def validateTar (cfg : Config) (gzMode : Bool) (t : TarFileX) : ValidationResult :=
  if t.openFails then
    { isValid := false, archiveType := some .tar,
      errorMessage := some .invalidArchive }
  else
    let total := tarTotalSize t
    let compressed := t.diskSize
    let ratio : ℚ := if 0 < compressed then (total : ℚ) / compressed else 1
    let tag : ArchiveType := if gzMode then .targz else .tar
    if cfg.maxExtractionRatio < ratio then
      { isValid := false, archiveType := some tag,
        errorMessage := some .ratioExceeded,
        totalSize := total, compressedSize := compressed,
        extractionRatio := ratio, fileCount := tarFileCount t }
    else
      { isValid := true, archiveType := some tag,
        totalSize := total, compressedSize := compressed,
        extractionRatio := ratio, fileCount := tarFileCount t }

def zipNoCompX : ZipFileX := { openFails := false, badMember := none, entries := [⟨5, 0⟩] }

def zipEmptyX : ZipFileX := { openFails := false, badMember := none, entries := [] }

/-- An archive as `check_nested_depth` observes it: its filename and the
member records the codec library reports, or `Except.error` when opening
or listing raises. -/
structure NestedView where
  viewName : Name
  listing : Except Unit (List TarEntry)

/-- Whether an archive type has a member-scanning branch in
`check_nested_depth` (validator.py lines 355-387); plain `gz` has none
and falls through. -/
def hasScanBranch : ArchiveType → Bool
  | .zip | .rar | .sevenZ | .tar | .targz => true
  | .gz => false

/-- The member names `check_nested_depth` iterates over: all names for
zip/rar/7z, only regular-file member names for tar/tar.gz (validator.py
line 376 guards with `member.isfile()`). -/
def scanNames (t : ArchiveType) (members : List TarEntry) : List Name :=
  match t with
  | .tar | .targz => (members.filter (fun e => e.isFile)).map (fun e => e.entryName)
  | _ => members.map (fun e => e.entryName)

/-- The member loop of `check_nested_depth`: each member whose name
detects as a supported archive type raises the depth estimate to
`currentDepth + 1`, returning `withinLimit = false` as soon as the
estimate reaches `max_nested_depth` (validator.py lines 355-387). -/
def nestedScan (cfg : Config) (currentDepth : Nat) (maxDepth : Nat) :
    List Name → Bool × Nat
  | [] => (true, maxDepth)
  | n :: rest =>
    if (detectArchiveType n).isSome then
      let m := max maxDepth (currentDepth + 1)
      if cfg.maxNestedDepth ≤ m then (false, m)
      else nestedScan cfg currentDepth m rest
    else nestedScan cfg currentDepth maxDepth rest

/-- `ArchiveValidator.check_nested_depth` (validator.py lines 334-392):
reject at entry when `current_depth >= max_nested_depth`; pass
unconditionally when the path is not a supported archive type; otherwise
scan the direct member list one level deep, with any exception during
open/list swallowed into `(True, depth found so far)`. -/
def checkNestedDepth (cfg : Config) (v : NestedView) (currentDepth : Nat) :
    Bool × Nat :=
  if cfg.maxNestedDepth ≤ currentDepth then (false, currentDepth)
  else
    match detectArchiveType v.viewName with
    | none => (true, currentDepth)
    | some t =>
      if hasScanBranch t then
        match v.listing with
        | .error _ => (true, currentDepth)
        | .ok members => nestedScan cfg currentDepth currentDepth (scanNames t members)
      else (true, currentDepth)

/-- Python `str.split` on the path separator. -/
def splitOnSlash : Name → List Name
  | [] => [[]]
  | c :: rest =>
    let r := splitOnSlash rest
    if c = '/' then [] :: r
    else
      match r with
      | [] => [[c]]
      | h :: t => (c :: h) :: t

/-- Resolution of one path component against an accumulated absolute
path, as the operating system resolves the output path of a TAR member
joined to the extraction directory: double dots pops a component, a
single dot or an empty component is ignored. -/
def stepComponent (acc : List Name) (comp : Name) : List Name :=
  if comp = "..".data then acc.dropLast
  else if comp = ".".data then acc
  else if comp = [] then acc
  else acc ++ [comp]

/-- The filesystem path (as a component list) at which a TAR member named
`member` lands when extracted into the directory `parent`. -/
def resolveUnder (parent : List Name) (member : Name) : List Name :=
  (splitOnSlash member).foldl stepComponent parent

/-- Whether a resolved output path lies inside the extraction directory. -/
def containedIn (parent resolved : List Name) : Bool :=
  parent.isPrefixOf resolved

/-- What the dispatcher observes of a TAR archive: whether
`tarfile.open`/`extractall` raises, and the member names. -/
structure TarOnDisk where
  tarOpenFails : Bool
  memberNames : List Name

/-- `ArchiveExtractor._extract_tar` (extractor.py lines 347-367): open the
archive (mode chosen by type) and call `tf.extractall(path=archive_path.parent)`,
which writes every member at its name joined to the parent directory —
there is no per-member filtering.  Any exception is caught and converted
to `false` with nothing recorded as written. -/
def extractTar (t : TarOnDisk) (parent : List Name) : Bool × List (List Name) :=
  if t.tarOpenFails then (false, [])
  else (true, t.memberNames.map (resolveUnder parent))

/-- Lexicographic comparison of names by character code, Python's string
order used by `sorted`. -/
def nameLe : Name → Name → Bool
  | [], _ => true
  | _ :: _, [] => false
  | a :: as, b :: bs =>
    if a < b then true
    else if b < a then false
    else nameLe as bs

/-- Insertion step of the sort used to model Python `sorted`. -/
def insertName (x : Name) : List Name → List Name
  | [] => [x]
  | y :: ys => if nameLe x y then x :: y :: ys else y :: insertName x ys

/-- Python `sorted` on a list of names (insertion sort by `nameLe`). -/
def sortNames (l : List Name) : List Name :=
  l.foldr insertName []

/-- Whether a path is matched by one of the `rglob` patterns of
`_find_all_archives` (extractor.py lines 105-116): its name ends with one
of the keys of `SUPPORTED_EXTENSIONS`. -/
def matchesSupportedExt (p : Name) : Bool :=
  SUPPORTED_EXTENSIONS.any (fun e => endsWithName p e.1)

/-- `ArchiveExtractor._find_all_archives` (extractor.py lines 105-116):
collect every file matching a supported-extension pattern and return
`sorted(set(...))`. -/
def findAllArchives (fs : List Name) : List Name :=
  sortNames (fs.filter matchesSupportedExt).dedup

/-- The legacy per-run statistics dictionary `extraction_stats`
(extractor.py lines 34-40 and 63-69). -/
structure Stats where
  totalProcessed : Nat := 0
  successful : Nat := 0
  failed : Nat := 0
  skipped : Nat := 0
  errors : List Name := []
  deriving Repr

/-- Everything one run of the orchestration loop reads from its
collaborators, as functions of the archive path: the configuration, the
`preserve_archives` flag, the validator's answer, the depth check's
answer, whether the type-specific `_extract_*` method returns `True`, and
the files a successful extraction writes next to the archive. -/
structure Env where
  config : Config
  preserveArchives : Bool
  validate : Name → ValidationResult
  checkDepth : Name → Bool × Nat
  dispatch : Name → Bool
  produced : Name → List Name

/-- State of one `extract_all` run: the legacy statistics, the
`extracted_archives` processed set, the directory tree, and traces of the
calls made (processing attempts, dispatcher invocations, deletions,
successful archives) plus the loop-iteration count. -/
structure RunState where
  stats : Stats := {}
  processed : List Name := []
  fs : List Name := []
  calls : List Name := []
  dispatched : List Name := []
  removed : List Name := []
  succeededA : List Name := []
  iterations : Nat := 0
  deriving Repr

/-- Error entry appended when validation fails (extractor.py line 155). -/
def errValidationMsg (p : Name) : Name :=
  p ++ ": Archive validation failed".data

/-- Error entry appended when the nested-depth check fails (extractor.py
line 179). -/
def errDepthMsg (p : Name) : Name :=
  p ++ ": Archive exceeds maximum nested depth".data

/-- Error entry appended when no extraction method exists for the
validated type (extractor.py line 213). -/
def errNotImplMsg (p : Name) : Name :=
  "Extraction not implemented: ".data ++ p

/-- Whether `_extract_single_archive` has an extraction branch for the
type (extractor.py lines 204-211); `gz` and `none` fall into the
`else` branch of line 212. -/
def isExtractableType : Option ArchiveType → Bool
  | some .zip | some .rar | some .sevenZ | some .tar | some .targz => true
  | _ => false

/-- `ArchiveExtractor._extract_single_archive` (extractor.py lines
125-280): count the attempt, skip if already processed, validate, check
nested depth, dispatch by type, record the outcome in the statistics and
the processed set, and delete the original on success when
`preserve_archives` is false.  The type-specific `_extract_*` methods
catch every exception and return `False` (lines 282-367), and collaborator
calls (logging, statistics recording, `os.remove`) are modelled as
non-raising, so the `except` branch of lines 259-280 is not reachable in
the model. -/
def extractSingleArchive (env : Env) (st0 : RunState) (p : Name) :
    RunState × Bool :=
  let st := { st0 with
    stats := { st0.stats with totalProcessed := st0.stats.totalProcessed + 1 },
    calls := st0.calls ++ [p] }
  if p ∈ st.processed then
    ({ st with stats := { st.stats with skipped := st.stats.skipped + 1 } }, true)
  else
    let v := env.validate p
    if v.isValid = false then
      ({ st with
          stats := { st.stats with
            failed := st.stats.failed + 1,
            errors := st.stats.errors ++ [errValidationMsg p] },
          processed := st.processed ++ [p] }, false)
    else
      let wd := env.checkDepth p
      if wd.1 = false then
        ({ st with
            stats := { st.stats with
              failed := st.stats.failed + 1,
              errors := st.stats.errors ++ [errDepthMsg p] },
            processed := st.processed ++ [p] }, false)
      else
        if isExtractableType v.archiveType then
          let st := { st with dispatched := st.dispatched ++ [p] }
          if env.dispatch p then
            let st := { st with
              stats := { st.stats with successful := st.stats.successful + 1 },
              processed := st.processed ++ [p],
              succeededA := st.succeededA ++ [p],
              fs := st.fs ++ env.produced p }
            if env.preserveArchives then (st, true)
            else
              ({ st with removed := st.removed ++ [p], fs := st.fs.erase p }, true)
          else
            ({ st with
                stats := { st.stats with failed := st.stats.failed + 1 },
                processed := st.processed ++ [p] }, false)
        else
          ({ st with
              stats := { st.stats with
                failed := st.stats.failed + 1,
                errors := st.stats.errors ++ [errNotImplMsg p] },
              processed := st.processed ++ [p] }, false)

/-- The `for archive_path in new_archives` loop of `extract_all`
(extractor.py lines 88-89). -/
def processList (env : Env) (st : RunState) : List Name → RunState
  | [] => st
  | p :: rest => processList env (extractSingleArchive env st p).1 rest

/-- The archives a scan finds that are not yet processed (extractor.py
lines 78-79). -/
def newArchivesOf (st : RunState) : List Name :=
  (findAllArchives st.fs).filter (fun a => decide (a ∉ st.processed))

/-- The `for iteration in range(max_iterations)` loop of `extract_all`
(extractor.py lines 74-89): each round scans the tree, stops when the
scan finds nothing unprocessed, and otherwise processes every new
archive; `iterations` counts the rounds entered. -/
def extractLoop (env : Env) : Nat → RunState → RunState
  | 0, st => st
  | fuel + 1, st =>
    let st1 := { st with iterations := st.iterations + 1 }
    let newArchives := newArchivesOf st1
    if newArchives = [] then st1
    else extractLoop env fuel (processList env st1 newArchives)

/-- `ArchiveExtractor.extract_all` (extractor.py lines 50-103): reset the
statistics and the processed set, then run at most
`max_nested_depth + 1` rounds over the directory `fs0`. -/
def extractAll (env : Env) (fs0 : List Name) : RunState :=
  extractLoop env (env.config.maxNestedDepth + 1) { fs := fs0 }

/-- A run environment in which every archive validates (type from the
detector), passes the depth check, and extracts successfully, writing no
nested archives. -/
def envAllOk : Env :=
  { config := {}
    preserveArchives := true
    validate := fun p =>
      { isValid := true, archiveType := detectArchiveType p, extractionRatio := 1 }
    checkDepth := fun _ => (true, 0)
    dispatch := fun _ => true
    produced := fun _ => [] }

/-- The directory of the split-archive scenario: a `part1`/`part2` pair,
a legacy `.r00` continuation volume, and a lone `.rar`. -/
def fsSplit : List Name :=
  ["archive.part1.rar".data, "archive.part2.rar".data,
   "archive.r00".data, "archive.rar".data]

/-- An environment identical to `envAllOk` except that the type-specific
extraction method reports failure. -/
def envDispatchFail : Env :=
  { envAllOk with dispatch := fun _ => false }

/-- A TAR archive carrying one path-traversal member and one normal
member. -/
def tarTraversalX : TarOnDisk :=
  { tarOpenFails := false
    memberNames := ["../evil.txt".data, "good.txt".data] }

/-- The extraction directory of the traversal scenario (the archive's
parent directory). -/
def parentDl : List Name :=
  ["downloads".data]

/-- Member records of a ZIP that contains another ZIP. -/
def nestedMembersW : List TarEntry :=
  [⟨"b.zip".data, true, 0⟩]

/-- A ZIP containing a nested ZIP, as `check_nested_depth` views it. -/
def nestedViewW : NestedView :=
  { viewName := "a.zip".data, listing := .ok nestedMembersW }

/-- An archive whose member listing raises, as `check_nested_depth`
views it. -/
def nestedViewErrW : NestedView :=
  { viewName := "a.zip".data, listing := .error () }

/-- An empty TAR archive record. -/
def tarEmptyX : TarFileX :=
  { openFails := false, entries := [], diskSize := 0 }

theorem insertName_perm (x : Name) (l : List Name) :
    (insertName x l).Perm (x :: l) := by
  induction l with
  | nil => simp [insertName]
  | cons y ys ih =>
    simp only [insertName]
    split
    · exact List.Perm.refl _
    · exact ((ih.cons y).trans (List.Perm.swap x y ys)).symm.symm

theorem sortNames_perm (l : List Name) : (sortNames l).Perm l := by
  induction l with
  | nil => simp [sortNames]
  | cons x xs ih =>
    simp only [sortNames, List.foldr] at ih ⊢
    exact (insertName_perm x _).trans (ih.cons x)

theorem findAllArchives_nodup (fs : List Name) : (findAllArchives fs).Nodup := by
  unfold findAllArchives
  exact ((sortNames_perm _).nodup_iff).2 (List.nodup_dedup _)

theorem mem_findAllArchives (fs : List Name) (p : Name) :
    p ∈ findAllArchives fs ↔ (p ∈ fs ∧ matchesSupportedExt p = true) := by
  unfold findAllArchives
  rw [(sortNames_perm _).mem_iff, List.mem_dedup, List.mem_filter]

theorem extractSingleArchive_calls (env : Env) (st : RunState) (p : Name) :
    ((extractSingleArchive env st p).1).calls = st.calls ++ [p] := by
  unfold extractSingleArchive
  dsimp only
  split_ifs <;> rfl

theorem extractSingleArchive_iterations (env : Env) (st : RunState) (p : Name) :
    ((extractSingleArchive env st p).1).iterations = st.iterations := by
  unfold extractSingleArchive
  dsimp only
  split_ifs <;> rfl

theorem extractSingleArchive_processed (env : Env) (st : RunState) (p : Name)
    (h : p ∉ st.processed) :
    ((extractSingleArchive env st p).1).processed = st.processed ++ [p] := by
  unfold extractSingleArchive
  dsimp only
  split_ifs <;> rfl

theorem extractSingleArchive_statsInv (env : Env) (st : RunState) (p : Name)
    (h1 : st.stats.totalProcessed
      = st.stats.successful + st.stats.failed + st.stats.skipped)
    (h2 : st.stats.errors.length ≤ st.stats.failed) :
    ((extractSingleArchive env st p).1).stats.totalProcessed
        = ((extractSingleArchive env st p).1).stats.successful
          + ((extractSingleArchive env st p).1).stats.failed
          + ((extractSingleArchive env st p).1).stats.skipped
      ∧ ((extractSingleArchive env st p).1).stats.errors.length
        ≤ ((extractSingleArchive env st p).1).stats.failed := by
  unfold extractSingleArchive
  dsimp only
  split_ifs <;> simp <;> omega

theorem extractSingleArchive_removedInv (env : Env) (st : RunState) (p : Name)
    (h : ∀ q, q ∈ st.removed ↔ (env.preserveArchives = false ∧ q ∈ st.succeededA)) :
    ∀ q, q ∈ ((extractSingleArchive env st p).1).removed
      ↔ (env.preserveArchives = false ∧ q ∈ ((extractSingleArchive env st p).1).succeededA) := by
  intro q
  have hq := h q
  unfold extractSingleArchive
  dsimp only
  split_ifs <;> simp_all [List.mem_append]

theorem extractSingleArchive_callsMatch (env : Env) (st : RunState) (p : Name)
    (h : ∀ q ∈ st.calls, matchesSupportedExt q = true)
    (hp : matchesSupportedExt p = true) :
    ∀ q ∈ ((extractSingleArchive env st p).1).calls, matchesSupportedExt q = true := by
  rw [extractSingleArchive_calls]
  intro q hq
  rcases List.mem_append.1 hq with hq | hq
  · exact h q hq
  · have : q = p := by simpa using hq
    exact this ▸ hp

theorem processList_calls (env : Env) (st : RunState) (l : List Name) :
    (processList env st l).calls = st.calls ++ l := by
  induction l generalizing st with
  | nil => simp [processList]
  | cons p rest ih =>
    simp only [processList]
    rw [ih, extractSingleArchive_calls]
    simp

theorem processList_iterations (env : Env) (st : RunState) (l : List Name) :
    (processList env st l).iterations = st.iterations := by
  induction l generalizing st with
  | nil => rfl
  | cons p rest ih =>
    simp only [processList]
    rw [ih, extractSingleArchive_iterations]

theorem processList_processed (env : Env) (st : RunState) (l : List Name)
    (h : ∀ p ∈ l, p ∉ st.processed) (hn : l.Nodup) :
    (processList env st l).processed = st.processed ++ l := by
  induction l generalizing st with
  | nil => simp [processList]
  | cons p rest ih =>
    simp only [processList]
    have hp : p ∉ st.processed := h p (List.mem_cons_self p rest)
    have hproc := extractSingleArchive_processed env st p hp
    rw [ih _ ?_ hn.of_cons, hproc]
    · simp
    · intro q hq
      rw [hproc]
      simp only [List.mem_append, List.mem_singleton]
      rintro (hbad | rfl)
      · exact h q (List.mem_cons_of_mem p hq) hbad
      · exact (List.nodup_cons.1 hn).1 hq

theorem processList_statsInv (env : Env) (st : RunState) (l : List Name)
    (h1 : st.stats.totalProcessed
      = st.stats.successful + st.stats.failed + st.stats.skipped)
    (h2 : st.stats.errors.length ≤ st.stats.failed) :
    (processList env st l).stats.totalProcessed
        = (processList env st l).stats.successful
          + (processList env st l).stats.failed
          + (processList env st l).stats.skipped
      ∧ (processList env st l).stats.errors.length
        ≤ (processList env st l).stats.failed := by
  induction l generalizing st with
  | nil => exact ⟨h1, h2⟩
  | cons p rest ih =>
    simp only [processList]
    have hs := extractSingleArchive_statsInv env st p h1 h2
    exact ih _ hs.1 hs.2

theorem processList_removedInv (env : Env) (st : RunState) (l : List Name)
    (h : ∀ q, q ∈ st.removed ↔ (env.preserveArchives = false ∧ q ∈ st.succeededA)) :
    ∀ q, q ∈ (processList env st l).removed
      ↔ (env.preserveArchives = false ∧ q ∈ (processList env st l).succeededA) := by
  induction l generalizing st with
  | nil => exact h
  | cons p rest ih =>
    simp only [processList]
    exact ih _ (extractSingleArchive_removedInv env st p h)

theorem processList_callsMatch (env : Env) (st : RunState) (l : List Name)
    (h : ∀ q ∈ st.calls, matchesSupportedExt q = true)
    (hl : ∀ p ∈ l, matchesSupportedExt p = true) :
    ∀ q ∈ (processList env st l).calls, matchesSupportedExt q = true := by
  induction l generalizing st with
  | nil => exact h
  | cons p rest ih =>
    simp only [processList]
    refine ih _ ?_ (fun q hq => hl q (List.mem_cons_of_mem p hq))
    exact extractSingleArchive_callsMatch env st p h (hl p (List.mem_cons_self p rest))

theorem newArchivesOf_nodup (st : RunState) : (newArchivesOf st).Nodup :=
  (findAllArchives_nodup st.fs).filter _

theorem newArchivesOf_fresh (st : RunState) :
    ∀ p ∈ newArchivesOf st, p ∉ st.processed := by
  intro p hp
  have := (List.mem_filter.1 hp).2
  simpa using this

theorem newArchivesOf_matches (st : RunState) :
    ∀ p ∈ newArchivesOf st, matchesSupportedExt p = true := by
  intro p hp
  exact ((mem_findAllArchives st.fs p).1 (List.mem_filter.1 hp).1).2

theorem extractLoop_iterations_le (env : Env) (fuel : Nat) (st : RunState) :
    (extractLoop env fuel st).iterations ≤ st.iterations + fuel := by
  induction fuel generalizing st with
  | zero => simp [extractLoop]
  | succ f ih =>
    simp only [extractLoop]
    split
    · simp
    · have hx := ih (processList env { st with iterations := st.iterations + 1 }
        (newArchivesOf { st with iterations := st.iterations + 1 }))
      rw [processList_iterations] at hx
      dsimp only at hx
      omega

theorem extractLoop_statsInv (env : Env) (fuel : Nat) (st : RunState)
    (h1 : st.stats.totalProcessed
      = st.stats.successful + st.stats.failed + st.stats.skipped)
    (h2 : st.stats.errors.length ≤ st.stats.failed) :
    (extractLoop env fuel st).stats.totalProcessed
        = (extractLoop env fuel st).stats.successful
          + (extractLoop env fuel st).stats.failed
          + (extractLoop env fuel st).stats.skipped
      ∧ (extractLoop env fuel st).stats.errors.length
        ≤ (extractLoop env fuel st).stats.failed := by
  induction fuel generalizing st with
  | zero => exact ⟨h1, h2⟩
  | succ f ih =>
    simp only [extractLoop]
    split
    · exact ⟨h1, h2⟩
    · have hp := processList_statsInv env { st with iterations := st.iterations + 1 }
        (newArchivesOf { st with iterations := st.iterations + 1 }) h1 h2
      exact ih _ hp.1 hp.2

theorem extractLoop_removedInv (env : Env) (fuel : Nat) (st : RunState)
    (h : ∀ q, q ∈ st.removed ↔ (env.preserveArchives = false ∧ q ∈ st.succeededA)) :
    ∀ q, q ∈ (extractLoop env fuel st).removed
      ↔ (env.preserveArchives = false ∧ q ∈ (extractLoop env fuel st).succeededA) := by
  induction fuel generalizing st with
  | zero => exact h
  | succ f ih =>
    simp only [extractLoop]
    split
    · exact h
    · exact ih _ (processList_removedInv env _ _ h)

theorem extractLoop_callsMatch (env : Env) (fuel : Nat) (st : RunState)
    (h : ∀ q ∈ st.calls, matchesSupportedExt q = true) :
    ∀ q ∈ (extractLoop env fuel st).calls, matchesSupportedExt q = true := by
  induction fuel generalizing st with
  | zero => exact h
  | succ f ih =>
    simp only [extractLoop]
    split
    · exact h
    · exact ih _ (processList_callsMatch env _ _ h (newArchivesOf_matches _))

theorem extractLoop_callsNodup (env : Env) (fuel : Nat) (st : RunState)
    (hnd : st.calls.Nodup)
    (hiff : ∀ q, q ∈ st.processed ↔ q ∈ st.calls) :
    (extractLoop env fuel st).calls.Nodup
      ∧ ∀ q, q ∈ (extractLoop env fuel st).processed
          ↔ q ∈ (extractLoop env fuel st).calls := by
  induction fuel generalizing st with
  | zero => exact ⟨hnd, hiff⟩
  | succ f ih =>
    simp only [extractLoop]
    split
    · exact ⟨hnd, hiff⟩
    · set st1 : RunState := { st with iterations := st.iterations + 1 } with hst1
      have hfresh : ∀ p ∈ newArchivesOf st1, p ∉ st1.processed :=
        newArchivesOf_fresh st1
      have hproc := processList_processed env st1 (newArchivesOf st1) hfresh
        (newArchivesOf_nodup st1)
      have hcalls := processList_calls env st1 (newArchivesOf st1)
      refine ih _ ?_ ?_
      · rw [hcalls]
        refine List.Nodup.append hnd (newArchivesOf_nodup st1) ?_
        intro q hq hq2
        exact hfresh q hq2 ((hiff q).2 hq)
      · intro q
        rw [hproc, hcalls]
        simp only [List.mem_append]
        rw [hiff q]

theorem nestedScan_spec (cfg : Config) (cur : Nat) (names : List Name) :
    ∀ maxd, nestedScan cfg cur maxd names
      = if names.any (fun n => (detectArchiveType n).isSome)
        then (decide (max maxd (cur + 1) < cfg.maxNestedDepth), max maxd (cur + 1))
        else (true, maxd) := by
  induction names with
  | nil => intro maxd; simp [nestedScan]
  | cons n rest ih =>
    intro maxd
    simp only [nestedScan, List.any_cons]
    by_cases hn : (detectArchiveType n).isSome
    · simp only [hn, Bool.true_or, if_true]
      split_ifs with hle
      · rw [decide_eq_false (Nat.not_lt.mpr hle)]
      · rw [ih (max maxd (cur + 1))]
        have hmm : max (max maxd (cur + 1)) (cur + 1) = max maxd (cur + 1) :=
          Nat.max_eq_left (Nat.le_max_right maxd (cur + 1))
        split_ifs with hr
        · rw [hmm]
        · rw [decide_eq_true (Nat.lt_of_not_le hle)]
    · simp only [Bool.not_eq_true] at hn
      simp only [hn, Bool.false_or]
      exact ih maxd

theorem lookup_value_mem (k : Name) (l : List (Name × ArchiveType)) (v : ArchiveType)
    (h : List.lookup k l = some v) : v ∈ l.map Prod.snd := by
  induction l with
  | nil => exact Option.noConfusion h
  | cons a rest ih =>
    obtain ⟨k2, v2⟩ := a
    rw [List.lookup] at h
    split at h
    · injection h with h2
      subst h2
      exact List.mem_cons_self _ _
    · exact List.mem_cons_of_mem _ (ih h)

/-- C5: for every configuration and directory tree, the orchestration
loop runs at most `maxNestedDepth + 1` rounds, and a round whose scan
finds no unprocessed archive ends the loop at once, leaving the state
unchanged apart from the round counter. -/
theorem claim_C5_termination (env : Env) (fs0 : List Name) :
    (extractAll env fs0).iterations ≤ env.config.maxNestedDepth + 1
      ∧ ∀ (fuel : Nat) (st : RunState), newArchivesOf st = []
          → extractLoop env (fuel + 1) st = { st with iterations := st.iterations + 1 } := by
  constructor
  · have h := extractLoop_iterations_le env (env.config.maxNestedDepth + 1) { fs := fs0 }
    simpa [extractAll] using h
  · intro fuel st hempty
    simp only [extractLoop]
    have : newArchivesOf { st with iterations := st.iterations + 1 } = newArchivesOf st := rfl
    rw [this, hempty]
    simp

/-- C6: within one run every path is handed to
`_extract_single_archive` at most once, and the processed set holds
exactly the paths whose processing was attempted, each added by its own
attempt. -/
theorem claim_C6_at_most_once (env : Env) (fs0 : List Name) :
    (extractAll env fs0).calls.Nodup
      ∧ ∀ p, p ∈ (extractAll env fs0).processed ↔ p ∈ (extractAll env fs0).calls := by
  unfold extractAll
  exact extractLoop_callsNodup env _ _ (by simp) (by simp)

/-- C9: an archive's file is deleted during a run exactly when the
`preserve_archives` flag (wired from `preserveOriginals`) is false and
that archive's extraction succeeded; archives that failed validation,
the depth check, or extraction are never deleted. -/
theorem claim_C9_delete_iff (env : Env) (fs0 : List Name) :
    ∀ p, p ∈ (extractAll env fs0).removed
      ↔ (env.preserveArchives = false ∧ p ∈ (extractAll env fs0).succeededA) := by
  unfold extractAll
  exact extractLoop_removedInv env _ _ (by simp)

/-- C3 counterexample: an archive that validates and passes the depth
check but whose extraction method reports failure is counted in `failed`
with no entry appended to `errors`, so after this run
`len(errors) = 0 ≠ 1 = failed`, refuting `len(errors) == failed`. -/
theorem claim_C3_counterexample :
    (extractAll envDispatchFail ["a.zip".data]).stats.failed = 1
      ∧ (extractAll envDispatchFail ["a.zip".data]).stats.errors.length = 0 := by
  decide

/-- C3 amended: after every recorded per-archive outcome and after any
complete run, `totalProcessed = successful + failed + skipped` holds,
and `len(errors) ≤ failed` (with equality failing exactly on the
dispatcher-failure path, which increments `failed` without appending an
error). -/
theorem claim_C3_stats (env : Env) (st : RunState) (p : Name) (fs0 : List Name)
    (h1 : st.stats.totalProcessed
      = st.stats.successful + st.stats.failed + st.stats.skipped)
    (h2 : st.stats.errors.length ≤ st.stats.failed) :
    (((extractSingleArchive env st p).1).stats.totalProcessed
        = ((extractSingleArchive env st p).1).stats.successful
          + ((extractSingleArchive env st p).1).stats.failed
          + ((extractSingleArchive env st p).1).stats.skipped
      ∧ ((extractSingleArchive env st p).1).stats.errors.length
        ≤ ((extractSingleArchive env st p).1).stats.failed)
      ∧ ((extractAll env fs0).stats.totalProcessed
          = (extractAll env fs0).stats.successful
            + (extractAll env fs0).stats.failed
            + (extractAll env fs0).stats.skipped
        ∧ (extractAll env fs0).stats.errors.length
          ≤ (extractAll env fs0).stats.failed) := by
  refine ⟨extractSingleArchive_statsInv env st p h1 h2, ?_⟩
  unfold extractAll
  exact extractLoop_statsInv env _ _ (by simp) (by simp)

theorem claim_C3_stats_witness :
    ((({} : RunState).stats.totalProcessed
        = ({} : RunState).stats.successful + ({} : RunState).stats.failed
          + ({} : RunState).stats.skipped)
      ∧ ({} : RunState).stats.errors.length ≤ ({} : RunState).stats.failed)
      ∧ (extractAll envAllOk fsSplit).stats.totalProcessed
          = (extractAll envAllOk fsSplit).stats.successful
            + (extractAll envAllOk fsSplit).stats.failed
            + (extractAll envAllOk fsSplit).stats.skipped := by
  refine ⟨⟨by decide, by decide⟩, ?_⟩
  exact (claim_C3_stats envAllOk {} "a.zip".data fsSplit (by decide) (by decide)).2.1

/-- C1 counterexample: with every collaborator answer favourable,
`archive.part2.rar` is discovered by the scan, handed to the
type-specific extractor, and nothing in the run is recorded as skipped —
refuting both "never passed to the extractor" and "recorded as
skipped". -/
theorem claim_C1_counterexample :
    "archive.part2.rar".data ∈ (extractAll envAllOk fsSplit).dispatched
      ∧ (extractAll envAllOk fsSplit).stats.skipped = 0 := by
  decide

/-- C1 amended: the engine has no split-part classifier.  Every
processed path merely matches a supported extension, `.r00` matches no
supported extension (so `archive.r00` is never discovered, validated, or
extracted — but it is not recorded as skipped either), while
`archive.part1.rar`, `archive.part2.rar` and `archive.rar` alike are
discovered and dispatched to extraction. -/
theorem claim_C1_no_split_classifier :
    (∀ (env : Env) (fs0 : List Name) (q : Name),
        q ∈ (extractAll env fs0).calls → matchesSupportedExt q = true)
      ∧ matchesSupportedExt "archive.r00".data = false
      ∧ (extractAll envAllOk fsSplit).dispatched
          = ["archive.part1.rar".data, "archive.part2.rar".data, "archive.rar".data]
      ∧ "archive.r00".data ∉ (extractAll envAllOk fsSplit).calls
      ∧ (extractAll envAllOk fsSplit).stats.skipped = 0
      ∧ (extractAll envAllOk fsSplit).stats.successful = 3 := by
  refine ⟨?_, by decide, by decide, by decide, by decide, by decide⟩
  intro env fs0 q hq
  unfold extractAll at hq
  exact extractLoop_callsMatch env _ _ (by simp) q hq

/-- C2 counterexample: a TAR member named `../evil.txt` is not skipped:
extraction succeeds, the member's resolved output path escapes the
extraction directory, and that escaping path is among the written
paths — refuting "no extracted file is ever written outside the
archive's parent directory". -/
theorem claim_C2_counterexample :
    (extractTar tarTraversalX parentDl).1 = true
      ∧ resolveUnder parentDl "../evil.txt".data ∈ (extractTar tarTraversalX parentDl).2
      ∧ containedIn parentDl (resolveUnder parentDl "../evil.txt".data) = false := by
  decide

/-- C2 amended: `_extract_tar` applies no per-member containment:
whenever the archive opens, extraction reports success and the written
paths are exactly every member name resolved against the parent
directory, escaping members included — no member is rejected or
skipped. -/
theorem claim_C2_no_containment (t : TarOnDisk) (parent : List Name)
    (hopen : t.tarOpenFails = false) :
    (extractTar t parent).1 = true
      ∧ (extractTar t parent).2 = t.memberNames.map (resolveUnder parent)
      ∧ ∀ m ∈ t.memberNames, resolveUnder parent m ∈ (extractTar t parent).2 := by
  unfold extractTar
  rw [hopen]
  refine ⟨rfl, rfl, ?_⟩
  intro m hm
  simpa using List.mem_map_of_mem (resolveUnder parent) hm

theorem claim_C2_no_containment_witness :
    (extractTar tarTraversalX parentDl).1 = true
      ∧ (extractTar tarTraversalX parentDl).2
        = tarTraversalX.memberNames.map (resolveUnder parentDl) :=
  ⟨(claim_C2_no_containment tarTraversalX parentDl (by decide)).1,
   (claim_C2_no_containment tarTraversalX parentDl (by decide)).2.1⟩

theorem validateZip_eq (cfg : Config) (z : ZipFileX) (ho : z.openFails = false)
    (hb : z.badMember = none) :
    validateZip cfg z
      = if cfg.maxExtractionRatio
          < (if 0 < zipCompressedSize z
             then (zipTotalSize z : ℚ) / (zipCompressedSize z : ℚ) else 1)
        then { isValid := false, archiveType := some .zip,
               errorMessage := some .ratioExceeded,
               totalSize := zipTotalSize z, compressedSize := zipCompressedSize z,
               extractionRatio := if 0 < zipCompressedSize z
                 then (zipTotalSize z : ℚ) / (zipCompressedSize z : ℚ) else 1,
               fileCount := z.entries.length }
        else { isValid := true, archiveType := some .zip,
               totalSize := zipTotalSize z, compressedSize := zipCompressedSize z,
               extractionRatio := if 0 < zipCompressedSize z
                 then (zipTotalSize z : ℚ) / (zipCompressedSize z : ℚ) else 1,
               fileCount := z.entries.length } := by
  unfold validateZip
  rw [ho, hb]
  rfl

theorem validateTar_eq (cfg : Config) (gzMode : Bool) (t : TarFileX)
    (ho : t.openFails = false) :
    validateTar cfg gzMode t
      = if cfg.maxExtractionRatio
          < (if 0 < t.diskSize
             then (tarTotalSize t : ℚ) / (t.diskSize : ℚ) else 1)
        then { isValid := false,
               archiveType := some (if gzMode then ArchiveType.targz else ArchiveType.tar),
               errorMessage := some .ratioExceeded,
               totalSize := tarTotalSize t, compressedSize := t.diskSize,
               extractionRatio := if 0 < t.diskSize
                 then (tarTotalSize t : ℚ) / (t.diskSize : ℚ) else 1,
               fileCount := tarFileCount t }
        else { isValid := true,
               archiveType := some (if gzMode then ArchiveType.targz else ArchiveType.tar),
               totalSize := tarTotalSize t, compressedSize := t.diskSize,
               extractionRatio := if 0 < t.diskSize
                 then (tarTotalSize t : ℚ) / (t.diskSize : ℚ) else 1,
               fileCount := tarFileCount t } := by
  unfold validateTar
  rw [ho]
  rfl

theorem validateZip_accept_ratio (cfg : Config) (z : ZipFileX)
    (h : (validateZip cfg z).isValid = true) :
    (validateZip cfg z).extractionRatio ≤ cfg.maxExtractionRatio := by
  cases ho : z.openFails with
  | true => simp [validateZip, ho] at h
  | false =>
    cases hb : z.badMember with
    | some bad => simp [validateZip, ho, hb] at h
    | none =>
      rw [validateZip_eq cfg z ho hb] at h ⊢
      split_ifs at h ⊢ <;> simp_all [not_lt]

theorem validateZip_reject_ratio (cfg : Config) (z : ZipFileX)
    (h : (validateZip cfg z).errorMessage = some .ratioExceeded) :
    cfg.maxExtractionRatio < (validateZip cfg z).extractionRatio := by
  cases ho : z.openFails with
  | true => simp [validateZip, ho] at h
  | false =>
    cases hb : z.badMember with
    | some bad => simp [validateZip, ho, hb] at h
    | none =>
      rw [validateZip_eq cfg z ho hb] at h ⊢
      split_ifs at h ⊢ <;> simp_all

theorem validateZip_ratio_def (cfg : Config) (z : ZipFileX)
    (ho : z.openFails = false) (hb : z.badMember = none) :
    (validateZip cfg z).extractionRatio
      = if 0 < zipCompressedSize z
        then (zipTotalSize z : ℚ) / (zipCompressedSize z : ℚ) else 1 := by
  rw [validateZip_eq cfg z ho hb]
  split_ifs <;> rfl

theorem validateTar_accept_ratio (cfg : Config) (gzMode : Bool) (t : TarFileX)
    (h : (validateTar cfg gzMode t).isValid = true) :
    (validateTar cfg gzMode t).extractionRatio ≤ cfg.maxExtractionRatio := by
  cases ho : t.openFails with
  | true => simp [validateTar, ho] at h
  | false =>
    rw [validateTar_eq cfg gzMode t ho] at h ⊢
    split_ifs at h ⊢ <;> simp_all [not_lt]

theorem validateTar_reject_ratio (cfg : Config) (gzMode : Bool) (t : TarFileX)
    (h : (validateTar cfg gzMode t).errorMessage = some .ratioExceeded) :
    cfg.maxExtractionRatio < (validateTar cfg gzMode t).extractionRatio := by
  cases ho : t.openFails with
  | true => simp [validateTar, ho] at h
  | false =>
    rw [validateTar_eq cfg gzMode t ho] at h ⊢
    split_ifs at h ⊢ <;> simp_all

theorem validateTar_ratio_def (cfg : Config) (gzMode : Bool) (t : TarFileX)
    (ho : t.openFails = false) :
    (validateTar cfg gzMode t).extractionRatio
      = if 0 < t.diskSize then (tarTotalSize t : ℚ) / (t.diskSize : ℚ) else 1 := by
  rw [validateTar_eq cfg gzMode t ho]
  split_ifs <;> rfl

/-- C4: a zip or tar archive is accepted only with extraction ratio at
most the configured limit, is rejected for ratio exactly when the ratio
strictly exceeds the limit, and the ratio is uncompressed size over
compressed size, taken as 1 when the compressed size is 0; the decision
sits in the validator, which is pure and extracts nothing. -/
theorem claim_C4_ratio_invariant (cfg : Config) (z : ZipFileX) (gzMode : Bool)
    (t : TarFileX) :
    ((validateZip cfg z).isValid = true
        → (validateZip cfg z).extractionRatio ≤ cfg.maxExtractionRatio)
      ∧ ((validateZip cfg z).errorMessage = some .ratioExceeded
        → cfg.maxExtractionRatio < (validateZip cfg z).extractionRatio)
      ∧ (z.openFails = false → z.badMember = none
        → (validateZip cfg z).extractionRatio
          = if 0 < zipCompressedSize z
            then (zipTotalSize z : ℚ) / (zipCompressedSize z : ℚ) else 1)
      ∧ ((validateTar cfg gzMode t).isValid = true
        → (validateTar cfg gzMode t).extractionRatio ≤ cfg.maxExtractionRatio)
      ∧ ((validateTar cfg gzMode t).errorMessage = some .ratioExceeded
        → cfg.maxExtractionRatio < (validateTar cfg gzMode t).extractionRatio)
      ∧ (t.openFails = false
        → (validateTar cfg gzMode t).extractionRatio
          = if 0 < t.diskSize then (tarTotalSize t : ℚ) / (t.diskSize : ℚ) else 1) :=
  ⟨validateZip_accept_ratio cfg z, validateZip_reject_ratio cfg z,
   validateZip_ratio_def cfg z, validateTar_accept_ratio cfg gzMode t,
   validateTar_reject_ratio cfg gzMode t, validateTar_ratio_def cfg gzMode t⟩

/-- C7 counterexample: `file.gz` is mapped to the tag `gz`, which is
neither absent nor one of {zip, rar, 7z, tar, tar.gz} — the extension
table also contains `.gz`. -/
theorem claim_C7_counterexample :
    detectArchiveType "file.gz".data = some ArchiveType.gz
      ∧ detectArchiveType "file.gz".data
          ∉ [none, some ArchiveType.zip, some ArchiveType.rar, some ArchiveType.sevenZ,
             some ArchiveType.tar, some ArchiveType.targz] := by
  decide

/-- C7 amended: detection is a pure function of the filename: names
ending (case-insensitively) in `.tar.gz` or `.tgz` map to tar.gz, and
every result is absent or one of {zip, rar, 7z, tar, tar.gz, gz} — the
lookup table holds `.zip`, `.rar`, `.7z`, `.tar` and also `.gz`. -/
theorem claim_C7_detector :
    (∀ name : Name,
        detectArchiveType name = none
          ∨ detectArchiveType name
            ∈ [some ArchiveType.zip, some ArchiveType.rar, some ArchiveType.sevenZ,
               some ArchiveType.tar, some ArchiveType.targz, some ArchiveType.gz])
      ∧ ∀ name : Name,
          (endsWithName (strLower name) ".tar.gz".data
            || endsWithName (strLower name) ".tgz".data) = true
          → detectArchiveType name = some ArchiveType.targz := by
  constructor
  · intro name
    unfold detectArchiveType
    dsimp only
    split_ifs with hcomp
    · right
      simp
    · cases hl : List.lookup (strLower (pathSuffix name)) SUPPORTED_EXTENSIONS with
      | none => left; rfl
      | some v =>
        right
        have hv := lookup_value_mem _ _ _ hl
        simp only [SUPPORTED_EXTENSIONS, List.map, List.mem_cons,
          List.not_mem_nil, or_false] at hv
        rcases hv with rfl | rfl | rfl | rfl | rfl | rfl | rfl <;> simp
  · intro name hend
    simp [detectArchiveType, hend]

/-- C8: for a supported archive type with a scanning branch and a
readable member listing, the depth check refuses exactly when the entry
depth already reaches the limit or some direct member's name detects as
an archive type while `currentDepth + 1` reaches the limit; otherwise it
passes, reporting `currentDepth + 1` when a nested-archive member name
exists one level deep and `currentDepth` when none does.  The scan never
recurses into members' contents: it reads only the direct member
names. -/
theorem claim_C8_depth_check (cfg : Config) (v : NestedView) (cur : Nat)
    (t : ArchiveType) (members : List TarEntry)
    (hdet : detectArchiveType v.viewName = some t)
    (hscan : hasScanBranch t = true)
    (hlist : v.listing = Except.ok members) :
    ((checkNestedDepth cfg v cur).1 = false
        ↔ (cfg.maxNestedDepth ≤ cur
            ∨ (cfg.maxNestedDepth ≤ cur + 1
                ∧ ∃ n ∈ scanNames t members, (detectArchiveType n).isSome = true)))
      ∧ ((checkNestedDepth cfg v cur).1 = true
          → (checkNestedDepth cfg v cur).2
            = if (scanNames t members).any (fun n => (detectArchiveType n).isSome)
              then cur + 1 else cur) := by
  simp only [checkNestedDepth, hdet, hlist, hscan, if_true]
  by_cases hcur : cfg.maxNestedDepth ≤ cur
  · rw [if_pos hcur]
    constructor
    · simp [hcur]
    · intro htrue
      simp at htrue
  · rw [if_neg hcur]
    rw [nestedScan_spec]
    have hmax : max cur (cur + 1) = cur + 1 := Nat.max_eq_right (Nat.le_succ cur)
    rw [hmax]
    by_cases hany :
        (scanNames t members).any (fun n => (detectArchiveType n).isSome) = true
    · simp only [hany, if_true]
      constructor
      · constructor
        · intro hf
          have : ¬ (cur + 1 < cfg.maxNestedDepth) := of_decide_eq_false hf
          exact Or.inr ⟨Nat.not_lt.1 this, List.any_eq_true.1 hany⟩
        · rintro (hc | ⟨hc2, _⟩)
          · exact absurd hc hcur
          · exact decide_eq_false (Nat.not_lt.2 hc2)
      · intro _
        trivial
    · have hany2 :
          (scanNames t members).any (fun n => (detectArchiveType n).isSome) = false :=
        Bool.eq_false_iff.2 hany
      simp only [hany2, Bool.false_eq_true, if_false]
      constructor
      · constructor
        · intro hf
          simp at hf
        · rintro (hc | ⟨hc2, hex⟩)
          · exact absurd hc hcur
          · exact absurd (List.any_eq_true.2 hex) hany
      · intro _
        trivial

/-- C10: when opening or listing the archive raises during the
nested-depth check (for a path that detects as an archive type, at any
current depth below the limit), the exception is swallowed and the
check reports `(withinLimit = true, currentDepth)` — the depth found so
far — so an unreadable archive passes the check. -/
theorem claim_C10_fail_open (cfg : Config) (v : NestedView) (cur : Nat) (e : Unit)
    (hcur : cur < cfg.maxNestedDepth)
    (hlist : v.listing = Except.error e) :
    checkNestedDepth cfg v cur = (true, cur) := by
  unfold checkNestedDepth
  rw [if_neg (Nat.not_le.2 hcur)]
  cases hdet : detectArchiveType v.viewName with
  | none => rfl
  | some t =>
    rw [hlist]
    dsimp only
    split_ifs <;> rfl

theorem claim_C5_termination_witness :
    (extractAll envAllOk fsSplit).iterations ≤ envAllOk.config.maxNestedDepth + 1
      ∧ extractLoop envAllOk 1 {}
        = { ({} : RunState) with iterations := ({} : RunState).iterations + 1 } :=
  ⟨(claim_C5_termination envAllOk fsSplit).1,
   (claim_C5_termination envAllOk fsSplit).2 0 {} (by decide)⟩

theorem claim_C6_at_most_once_witness :
    (extractAll envAllOk fsSplit).calls.Nodup
      ∧ ("archive.rar".data ∈ (extractAll envAllOk fsSplit).processed
        ↔ "archive.rar".data ∈ (extractAll envAllOk fsSplit).calls) :=
  ⟨(claim_C6_at_most_once envAllOk fsSplit).1,
   (claim_C6_at_most_once envAllOk fsSplit).2 "archive.rar".data⟩

theorem claim_C9_delete_iff_witness :
    "a.zip".data ∈ (extractAll { envAllOk with preserveArchives := false } ["a.zip".data]).removed
      ↔ (({ envAllOk with preserveArchives := false } : Env).preserveArchives = false
        ∧ "a.zip".data
          ∈ (extractAll { envAllOk with preserveArchives := false } ["a.zip".data]).succeededA) :=
  claim_C9_delete_iff { envAllOk with preserveArchives := false } ["a.zip".data] "a.zip".data

theorem claim_C4_ratio_invariant_witness :
    (validateZip {} zipNoCompX).extractionRatio ≤ ({} : Config).maxExtractionRatio
      ∧ ({ maxExtractionRatio := 0 } : Config).maxExtractionRatio
        < (validateZip { maxExtractionRatio := 0 } zipNoCompX).extractionRatio :=
  ⟨(claim_C4_ratio_invariant {} zipNoCompX false tarEmptyX).1 (by decide),
   (claim_C4_ratio_invariant { maxExtractionRatio := 0 } zipNoCompX false tarEmptyX).2.1
     (by decide)⟩

theorem claim_C8_depth_check_witness :
    ((checkNestedDepth { maxNestedDepth := 1 } nestedViewW 0).1 = false
        ↔ (({ maxNestedDepth := 1 } : Config).maxNestedDepth ≤ 0
            ∨ (({ maxNestedDepth := 1 } : Config).maxNestedDepth ≤ 0 + 1
                ∧ ∃ n ∈ scanNames ArchiveType.zip nestedMembersW,
                    (detectArchiveType n).isSome = true)))
      ∧ ((checkNestedDepth { maxNestedDepth := 1 } nestedViewW 0).1 = true
          → (checkNestedDepth { maxNestedDepth := 1 } nestedViewW 0).2
            = if (scanNames ArchiveType.zip nestedMembersW).any
                  (fun n => (detectArchiveType n).isSome)
              then 0 + 1 else 0) :=
  claim_C8_depth_check { maxNestedDepth := 1 } nestedViewW 0 ArchiveType.zip
    nestedMembersW (by decide) (by decide) rfl

theorem claim_C10_fail_open_witness :
    checkNestedDepth {} nestedViewErrW 0 = (true, 0) :=
  claim_C10_fail_open {} nestedViewErrW 0 () (by decide) rfl
